import Mathlib

/-!
Shallow embedding of the TabWise model-management core:
backend/utils/model_manager.py (classes ModelCache and ModelManager) and
backend/utils/inference_handler.py (class InferenceHandler).

Python dicts are modelled as insertion-ordered association lists with
unique keys; machine integers and byte counts are Lean Int (Python int is
unbounded); wall-clock instants and timedeltas are Int; file contents and
SHA-256 digests are abstracted as Nat, with the hash function passed as an
explicit parameter wherever the source calls hashlib; raised Python
exceptions are modelled with Except.
-/

/-- Abstract in-memory handle: a loaded torch object stored in the cache. -/
abbrev Handle := Nat

/-- Python dict lookup by key over an insertion-ordered association list. -/
def dictGet {α : Type} : List (String × α) → String → Option α
  | [], _ => none
  | p :: rest, k => if p.1 = k then some p.2 else dictGet rest k

/-- Python dict deletion: removes the first binding of the key (the only
one, since dict keys are unique); no-op when the key is absent. -/
def dictErase {α : Type} : List (String × α) → String → List (String × α)
  | [], _ => []
  | p :: rest, k => if p.1 = k then rest else p :: dictErase rest k

/-- Python dict assignment: replaces the binding in place when the key is
present, appends a new binding otherwise. -/
def dictInsert {α : Type} : List (String × α) → String → α → List (String × α)
  | [], k, v => [(k, v)]
  | p :: rest, k, v => if p.1 = k then (k, v) :: rest else p :: dictInsert rest k v

/-- Keys of an association list, in order. -/
def dictKeys {α : Type} (l : List (String × α)) : List String :=
  l.map Prod.fst

theorem dictKeys_cons {α : Type} (p : String × α) (rest : List (String × α)) :
    dictKeys (p :: rest) = p.1 :: dictKeys rest := rfl

theorem dictGet_eq_none_iff {α : Type} (l : List (String × α)) (k : String) :
    dictGet l k = none ↔ k ∉ dictKeys l := by
  induction l with
  | nil => simp [dictGet, dictKeys]
  | cons p rest ih =>
    rw [dictKeys_cons, List.mem_cons]
    by_cases h : p.1 = k
    · subst h
      simp [dictGet]
    · rw [dictGet, if_neg h, ih]
      constructor
      · intro hn hor
        rcases hor with he | hm
        · exact h he.symm
        · exact hn hm
      · intro hall hm
        exact hall (Or.inr hm)

theorem dictGet_isSome_of_mem {α : Type} {k : String} {v : α} :
    ∀ {l : List (String × α)}, (k, v) ∈ l → (dictGet l k).isSome = true := by
  intro l
  induction l with
  | nil => intro h; simp at h
  | cons p rest ih =>
    intro hmem
    rcases List.mem_cons.mp hmem with he | hm
    · rw [dictGet, if_pos (by rw [← he])]
      rfl
    · by_cases hk : p.1 = k
      · rw [dictGet, if_pos hk]; rfl
      · rw [dictGet, if_neg hk]; exact ih hm

theorem dictErase_length {α : Type} {k : String} {v : α} :
    ∀ {l : List (String × α)}, dictGet l k = some v →
      (dictErase l k).length + 1 = l.length := by
  intro l
  induction l with
  | nil => intro h; simp [dictGet] at h
  | cons p rest ih =>
    intro h
    by_cases hk : p.1 = k
    · rw [dictErase, if_pos hk]
      simp
    · rw [dictGet, if_neg hk] at h
      rw [dictErase, if_neg hk]
      simp [← ih h]

theorem dictErase_subset {α : Type} {k : String} :
    ∀ {l : List (String × α)}, ∀ x ∈ dictErase l k, x ∈ l := by
  intro l
  induction l with
  | nil => intro x hx; simp [dictErase] at hx
  | cons p rest ih =>
    intro x hx
    by_cases hk : p.1 = k
    · rw [dictErase, if_pos hk] at hx
      exact List.mem_cons_of_mem _ hx
    · rw [dictErase, if_neg hk] at hx
      rcases List.mem_cons.mp hx with he | hm
      · rw [he]; exact List.mem_cons_self _ _
      · exact List.mem_cons_of_mem _ (ih x hm)

theorem dictErase_keys_sublist {α : Type} (l : List (String × α)) (k : String) :
    (dictKeys (dictErase l k)).Sublist (dictKeys l) := by
  induction l with
  | nil => simp [dictErase, dictKeys]
  | cons p rest ih =>
    by_cases hk : p.1 = k
    · rw [dictErase, if_pos hk, dictKeys_cons]
      exact List.sublist_cons_self p.1 (dictKeys rest)
    · rw [dictErase, if_neg hk, dictKeys_cons, dictKeys_cons]
      exact ih.cons₂ p.1

theorem dictErase_keys_nodup {α : Type} {l : List (String × α)} {k : String}
    (h : (dictKeys l).Nodup) : (dictKeys (dictErase l k)).Nodup :=
  (dictErase_keys_sublist l k).nodup h

theorem dictGet_of_mem_nodup {α : Type} {k : String} {v : α} :
    ∀ {l : List (String × α)}, (dictKeys l).Nodup → (k, v) ∈ l →
      dictGet l k = some v := by
  intro l
  induction l with
  | nil => intro _ h; simp at h
  | cons p rest ih =>
    intro hnd hmem
    rw [dictKeys_cons] at hnd
    have hnd1 := (List.nodup_cons.mp hnd).1
    have hnd2 := (List.nodup_cons.mp hnd).2
    rcases List.mem_cons.mp hmem with he | hm
    · rw [dictGet, if_pos (by rw [← he]), ← he]
    · have hk : p.1 ≠ k := by
        intro he
        apply hnd1
        rw [he]
        exact List.mem_map_of_mem Prod.fst hm
      rw [dictGet, if_neg hk]
      exact ih hnd2 hm

theorem dictErase_not_mem {α : Type} {k : String} {v : α} :
    ∀ {l : List (String × α)}, (dictKeys l).Nodup → dictGet l k = some v →
      ∀ x ∈ l, x ∉ dictErase l k → x = (k, v) := by
  intro l
  induction l with
  | nil => intro _ h; simp [dictGet] at h
  | cons p rest ih =>
    intro hnd hget x hx hnx
    rw [dictKeys_cons] at hnd
    have hnd2 := (List.nodup_cons.mp hnd).2
    by_cases hk : p.1 = k
    · rw [dictGet, if_pos hk] at hget
      rw [dictErase, if_pos hk] at hnx
      rcases List.mem_cons.mp hx with he | hm
      · rw [he]
        exact Prod.ext hk (Option.some.inj hget)
      · exact absurd hm hnx
    · rw [dictGet, if_neg hk] at hget
      rw [dictErase, if_neg hk] at hnx
      rcases List.mem_cons.mp hx with he | hm
      · subst he
        exact absurd (List.mem_cons_self _ _) hnx
      · exact ih hnd2 hget x hm (fun hmem => hnx (List.mem_cons_of_mem p hmem))

theorem dictGet_erase_self {α : Type} {k : String} :
    ∀ {l : List (String × α)}, (dictKeys l).Nodup →
      dictGet (dictErase l k) k = none := by
  intro l
  induction l with
  | nil => intro _; simp [dictErase, dictGet]
  | cons p rest ih =>
    intro hnd
    rw [dictKeys_cons] at hnd
    have hnd1 := (List.nodup_cons.mp hnd).1
    have hnd2 := (List.nodup_cons.mp hnd).2
    by_cases hk : p.1 = k
    · rw [dictErase, if_pos hk, dictGet_eq_none_iff, ← hk]
      exact hnd1
    · rw [dictErase, if_neg hk, dictGet, if_neg hk]
      exact ih hnd2

theorem dictInsert_of_absent {α : Type} {k : String} (v : α) :
    ∀ {l : List (String × α)}, dictGet l k = none →
      dictInsert l k v = l ++ [(k, v)] := by
  intro l
  induction l with
  | nil => intro _; simp [dictInsert]
  | cons p rest ih =>
    intro h
    by_cases hk : p.1 = k
    · rw [dictGet, if_pos hk] at h
      simp at h
    · rw [dictGet, if_neg hk] at h
      rw [dictInsert, if_neg hk, ih h]
      simp

namespace ModelCache

/-- Metadata of one cache index entry: insertion timestamp and recorded
byte size (model_manager.py, entries written by ModelCache.put). -/
structure CacheEntryM where
  timestamp : Int
  size : Int
deriving DecidableEq

/-- State of a ModelCache instance: the persisted index (entries dict and
running total), the cache directory contents (one .pt file per key; some h
loads back to h, none marks a file torch.load fails on), and the
configured ceiling and TTL. -/
structure CacheState where
  entries : List (String × CacheEntryM)
  total_size : Int
  disk : List (String × Option Handle)
  max_size_bytes : Int
  ttl : Int
deriving DecidableEq

/-- A freshly initialised cache index (ModelCache.load_cache_index when
no index file exists yet). -/
def empty_cache (maxBytes ttl : Int) : CacheState :=
  { entries := [], total_size := 0, disk := [], max_size_bytes := maxBytes, ttl := ttl }

/-- ModelCache.invalidate: if the key is present, unlink the backing
file, decrement the running total by the recorded size and delete the
index entry; otherwise a no-op. -/
def invalidate (s : CacheState) (k : String) : CacheState :=
  match dictGet s.entries k with
  | none => s
  | some e =>
    { s with
      disk := dictErase s.disk k
      total_size := s.total_size - e.size
      entries := dictErase s.entries k }

/-- One comparison step of Python's min with a timestamp key function:
keep the current best unless the next element is strictly older. -/
def olderOf (best x : String × CacheEntryM) : String × CacheEntryM :=
  if x.2.timestamp < best.2.timestamp then x else best

/-- The argmin over the entries dict computed by ModelCache._ensure_cache_size:
the first entry (in dict iteration order) carrying the minimal insertion
timestamp, exactly as Python's min over the keys with a timestamp key
function resolves ties. -/
def oldestEntry : List (String × CacheEntryM) → Option (String × CacheEntryM)
  | [] => none
  | e :: rest => some (rest.foldl olderOf e)

/-- One traversal step of the loop in ModelCache._ensure_cache_size; the
fuel argument bounds the number of iterations.  Each iteration removes one
live entry, so entries.length iterations always suffice (see
ensure_cache_size and ensureAux_exit). -/
def ensureAux (needed : Int) : Nat → CacheState → CacheState
  | 0, s => s
  | fuel + 1, s =>
    if s.total_size + needed ≤ s.max_size_bytes then s
    else
      match oldestEntry s.entries with
      | none => s
      | some pr => ensureAux needed fuel (invalidate s pr.1)

/-- ModelCache._ensure_cache_size: repeatedly evict the
oldest-by-timestamp entry while the running total plus the incoming size
exceeds the ceiling and entries remain. -/
def ensure_cache_size (s : CacheState) (needed : Int) : CacheState :=
  ensureAux needed s.entries.length s

/-- ModelCache.put: make room, torch.save the data under the key, record
the entry with the current timestamp, and add its size to the running
total. -/
def put (s : CacheState) (k : String) (data : Handle) (size_bytes : Int) (now : Int) :
    CacheState :=
  let s1 := ensure_cache_size s size_bytes
  let s2 := { s1 with disk := dictInsert s1.disk k (some data) }
  { s2 with
    entries := dictInsert s2.entries k { timestamp := now, size := size_bytes }
    total_size := s2.total_size + size_bytes }

/-- ModelCache.get: miss on an absent key; an entry older than the TTL or
whose backing file is missing or fails torch.load is invalidated and
reported as a miss; otherwise the stored handle is returned. -/
def get (s : CacheState) (k : String) (now : Int) : Option Handle × CacheState :=
  match dictGet s.entries k with
  | none => (none, s)
  | some e =>
    if now - e.timestamp > s.ttl then (none, invalidate s k)
    else
      match dictGet s.disk k with
      | none => (none, invalidate s k)
      | some none => (none, invalidate s k)
      | some (some h) => (some h, s)

/-- The cache-index bookkeeping invariant of the spec: the recorded
running total equals the sum of the live entries' recorded sizes. -/
def CacheWF (s : CacheState) : Prop :=
  s.total_size = (s.entries.map (fun p => p.2.size)).sum

instance (s : CacheState) : Decidable (CacheWF s) := by
  unfold CacheWF
  infer_instance

end ModelCache

namespace ModelCache

theorem foldl_olderOf_mem : ∀ (rest : List (String × CacheEntryM)) (acc : String × CacheEntryM),
    rest.foldl olderOf acc = acc ∨ rest.foldl olderOf acc ∈ rest := by
  intro rest
  induction rest with
  | nil => intro acc; left; rfl
  | cons x rest ih =>
    intro acc
    rw [List.foldl_cons]
    rcases ih (olderOf acc x) with h | h
    · rw [h]
      unfold olderOf
      by_cases hx : x.2.timestamp < acc.2.timestamp
      · right; rw [if_pos hx]; exact List.mem_cons_self _ _
      · left; rw [if_neg hx]
    · right
      exact List.mem_cons_of_mem _ h

theorem foldl_olderOf_le : ∀ (rest : List (String × CacheEntryM)) (acc : String × CacheEntryM),
    (rest.foldl olderOf acc).2.timestamp ≤ acc.2.timestamp ∧
    ∀ x ∈ rest, (rest.foldl olderOf acc).2.timestamp ≤ x.2.timestamp := by
  intro rest
  induction rest with
  | nil => intro acc; exact ⟨le_refl _, by simp⟩
  | cons x rest ih =>
    intro acc
    rw [List.foldl_cons]
    obtain ⟨h1, h2⟩ := ih (olderOf acc x)
    have hle_acc : (olderOf acc x).2.timestamp ≤ acc.2.timestamp := by
      unfold olderOf; split <;> omega
    have hle_x : (olderOf acc x).2.timestamp ≤ x.2.timestamp := by
      unfold olderOf; split <;> omega
    refine ⟨le_trans h1 hle_acc, ?_⟩
    intro y hy
    rcases List.mem_cons.mp hy with he | hm
    · subst he; exact le_trans h1 hle_x
    · exact h2 y hm

theorem oldestEntry_spec {l : List (String × CacheEntryM)} {pr : String × CacheEntryM}
    (h : oldestEntry l = some pr) :
    pr ∈ l ∧ ∀ x ∈ l, pr.2.timestamp ≤ x.2.timestamp := by
  cases l with
  | nil => simp [oldestEntry] at h
  | cons e rest =>
    rw [oldestEntry] at h
    have hpr : pr = rest.foldl olderOf e := (Option.some.inj h).symm
    subst hpr
    constructor
    · rcases foldl_olderOf_mem rest e with h1 | h1
      · rw [h1]; exact List.mem_cons_self _ _
      · exact List.mem_cons_of_mem _ h1
    · intro x hx
      obtain ⟨h1, h2⟩ := foldl_olderOf_le rest e
      rcases List.mem_cons.mp hx with he | hm
      · subst he; exact h1
      · exact h2 x hm

theorem invalidate_eq_of_get {s : CacheState} {k : String} {e : CacheEntryM}
    (h : dictGet s.entries k = some e) :
    invalidate s k =
      { s with
        disk := dictErase s.disk k
        total_size := s.total_size - e.size
        entries := dictErase s.entries k } := by
  unfold invalidate
  rw [h]

theorem invalidate_eq_of_absent {s : CacheState} {k : String}
    (h : dictGet s.entries k = none) : invalidate s k = s := by
  unfold invalidate
  rw [h]

theorem invalidate_max (s : CacheState) (k : String) :
    (invalidate s k).max_size_bytes = s.max_size_bytes := by
  unfold invalidate
  cases dictGet s.entries k <;> rfl

theorem dictErase_sum_sizes {k : String} :
    ∀ {l : List (String × CacheEntryM)} {e : CacheEntryM}, dictGet l k = some e →
      ((dictErase l k).map (fun p => p.2.size)).sum + e.size
        = (l.map (fun p => p.2.size)).sum := by
  intro l
  induction l with
  | nil => intro e h; simp [dictGet] at h
  | cons p rest ih =>
    intro e h
    by_cases hk : p.1 = k
    · rw [dictGet, if_pos hk] at h
      rw [dictErase, if_pos hk]
      rw [← Option.some.inj h]
      simp only [List.map_cons, List.sum_cons]
      omega
    · rw [dictGet, if_neg hk] at h
      rw [dictErase, if_neg hk]
      simp only [List.map_cons, List.sum_cons]
      have := ih h
      omega

theorem invalidate_wf {s : CacheState} (h : CacheWF s) (k : String) :
    CacheWF (invalidate s k) := by
  cases hg : dictGet s.entries k with
  | none => rw [invalidate_eq_of_absent hg]; exact h
  | some e =>
    rw [invalidate_eq_of_get hg]
    unfold CacheWF at *
    simp only
    have := dictErase_sum_sizes hg
    omega

theorem invalidate_subset (s : CacheState) (k : String) :
    ∀ x ∈ (invalidate s k).entries, x ∈ s.entries := by
  cases hg : dictGet s.entries k with
  | none => rw [invalidate_eq_of_absent hg]; intro x hx; exact hx
  | some e =>
    rw [invalidate_eq_of_get hg]
    intro x hx
    exact dictErase_subset x hx

theorem invalidate_nodup {s : CacheState} (h : (dictKeys s.entries).Nodup) (k : String) :
    (dictKeys (invalidate s k).entries).Nodup := by
  cases hg : dictGet s.entries k with
  | none => rw [invalidate_eq_of_absent hg]; exact h
  | some e =>
    rw [invalidate_eq_of_get hg]
    exact dictErase_keys_nodup h

end ModelCache

theorem dictGet_erase_none {α : Type} {l : List (String × α)} {k k' : String}
    (h : dictGet l k = none) : dictGet (dictErase l k') k = none := by
  rw [dictGet_eq_none_iff] at h ⊢
  intro hmem
  exact h ((dictErase_keys_sublist l k').subset hmem)

namespace ModelCache

theorem invalidate_fresh {s : CacheState} {k k' : String}
    (h : dictGet s.entries k = none) : dictGet (invalidate s k').entries k = none := by
  cases hg : dictGet s.entries k' with
  | none => rw [invalidate_eq_of_absent hg]; exact h
  | some e =>
    rw [invalidate_eq_of_get hg]
    exact dictGet_erase_none h

theorem oldest_get_some {s : CacheState} {pr : String × CacheEntryM}
    (h : oldestEntry s.entries = some pr) :
    ∃ v, dictGet s.entries pr.1 = some v := by
  obtain ⟨hmem, _⟩ := oldestEntry_spec h
  have hs : (dictGet s.entries pr.1).isSome = true := dictGet_isSome_of_mem hmem
  exact Option.isSome_iff_exists.mp hs

theorem invalidate_oldest_length {s : CacheState} {pr : String × CacheEntryM}
    (h : oldestEntry s.entries = some pr) :
    (invalidate s pr.1).entries.length + 1 = s.entries.length := by
  obtain ⟨v, hv⟩ := oldest_get_some h
  rw [invalidate_eq_of_get hv]
  exact dictErase_length hv

theorem ensureAux_max (needed : Int) :
    ∀ (fuel : Nat) (s : CacheState),
      (ensureAux needed fuel s).max_size_bytes = s.max_size_bytes := by
  intro fuel
  induction fuel with
  | zero => intro s; rfl
  | succ n ih =>
    intro s
    rw [ensureAux]
    by_cases hc : s.total_size + needed ≤ s.max_size_bytes
    · rw [if_pos hc]
    · rw [if_neg hc]
      cases ho : oldestEntry s.entries with
      | none => rfl
      | some pr => rw [ih, invalidate_max]

theorem ensureAux_ttl (needed : Int) :
    ∀ (fuel : Nat) (s : CacheState), (ensureAux needed fuel s).ttl = s.ttl := by
  intro fuel
  induction fuel with
  | zero => intro s; rfl
  | succ n ih =>
    intro s
    rw [ensureAux]
    by_cases hc : s.total_size + needed ≤ s.max_size_bytes
    · rw [if_pos hc]
    · rw [if_neg hc]
      cases ho : oldestEntry s.entries with
      | none => rfl
      | some pr =>
        rw [ih]
        cases hg : dictGet s.entries pr.1 with
        | none => rw [invalidate_eq_of_absent hg]
        | some e => rw [invalidate_eq_of_get hg]

theorem ensureAux_wf (needed : Int) :
    ∀ (fuel : Nat) (s : CacheState), CacheWF s → CacheWF (ensureAux needed fuel s) := by
  intro fuel
  induction fuel with
  | zero => intro s h; exact h
  | succ n ih =>
    intro s h
    rw [ensureAux]
    by_cases hc : s.total_size + needed ≤ s.max_size_bytes
    · rw [if_pos hc]; exact h
    · rw [if_neg hc]
      cases ho : oldestEntry s.entries with
      | none => exact h
      | some pr => exact ih _ (invalidate_wf h pr.1)

theorem ensureAux_subset (needed : Int) :
    ∀ (fuel : Nat) (s : CacheState),
      ∀ x ∈ (ensureAux needed fuel s).entries, x ∈ s.entries := by
  intro fuel
  induction fuel with
  | zero => intro s x hx; exact hx
  | succ n ih =>
    intro s x hx
    rw [ensureAux] at hx
    by_cases hc : s.total_size + needed ≤ s.max_size_bytes
    · rw [if_pos hc] at hx; exact hx
    · rw [if_neg hc] at hx
      cases ho : oldestEntry s.entries with
      | none => rw [ho] at hx; exact hx
      | some pr =>
        rw [ho] at hx
        exact invalidate_subset s pr.1 x (ih _ x hx)

theorem ensureAux_nodup (needed : Int) :
    ∀ (fuel : Nat) (s : CacheState), (dictKeys s.entries).Nodup →
      (dictKeys (ensureAux needed fuel s).entries).Nodup := by
  intro fuel
  induction fuel with
  | zero => intro s h; exact h
  | succ n ih =>
    intro s h
    rw [ensureAux]
    by_cases hc : s.total_size + needed ≤ s.max_size_bytes
    · rw [if_pos hc]; exact h
    · rw [if_neg hc]
      cases ho : oldestEntry s.entries with
      | none => exact h
      | some pr => exact ih _ (invalidate_nodup h pr.1)

theorem ensureAux_fresh (needed : Int) {k : String} :
    ∀ (fuel : Nat) (s : CacheState), dictGet s.entries k = none →
      dictGet (ensureAux needed fuel s).entries k = none := by
  intro fuel
  induction fuel with
  | zero => intro s h; exact h
  | succ n ih =>
    intro s h
    rw [ensureAux]
    by_cases hc : s.total_size + needed ≤ s.max_size_bytes
    · rw [if_pos hc]; exact h
    · rw [if_neg hc]
      cases ho : oldestEntry s.entries with
      | none => exact h
      | some pr => exact ih _ (invalidate_fresh h)

theorem ensureAux_exit (needed : Int) :
    ∀ (fuel : Nat) (s : CacheState), s.entries.length ≤ fuel →
      (ensureAux needed fuel s).total_size + needed ≤ s.max_size_bytes ∨
      (ensureAux needed fuel s).entries = [] := by
  intro fuel
  induction fuel with
  | zero =>
    intro s hlen
    right
    rw [ensureAux]
    exact List.length_eq_zero.mp (Nat.le_zero.mp hlen)
  | succ n ih =>
    intro s hlen
    rw [ensureAux]
    by_cases hc : s.total_size + needed ≤ s.max_size_bytes
    · rw [if_pos hc]; left; exact hc
    · rw [if_neg hc]
      cases ho : oldestEntry s.entries with
      | none =>
        right
        cases he : s.entries with
        | nil => rfl
        | cons a l => rw [he] at ho; simp [oldestEntry] at ho
      | some pr =>
        have hlen' : (invalidate s pr.1).entries.length ≤ n := by
          have := invalidate_oldest_length ho
          omega
        rcases ih (invalidate s pr.1) hlen' with h1 | h1
        · left
          rw [invalidate_max] at h1
          exact h1
        · right
          exact h1

theorem ensureAux_oldest_first (needed : Int) :
    ∀ (fuel : Nat) (s : CacheState), (dictKeys s.entries).Nodup →
      ∀ x ∈ s.entries, x ∉ (ensureAux needed fuel s).entries →
        ∀ y ∈ (ensureAux needed fuel s).entries, x.2.timestamp ≤ y.2.timestamp := by
  intro fuel
  induction fuel with
  | zero =>
    intro s _ x hx hnx y _
    exact absurd hx hnx
  | succ n ih =>
    intro s hnd x hx hnx y hy
    rw [ensureAux] at hnx hy
    by_cases hc : s.total_size + needed ≤ s.max_size_bytes
    · rw [if_pos hc] at hnx hy
      exact absurd hx hnx
    · rw [if_neg hc] at hnx hy
      cases ho : oldestEntry s.entries with
      | none =>
        rw [ho] at hnx hy
        exact absurd hx hnx
      | some pr =>
        rw [ho] at hnx hy
        obtain ⟨hmem, hmin⟩ := oldestEntry_spec ho
        obtain ⟨v, hv⟩ := oldest_get_some ho
        by_cases hxs : x ∈ (invalidate s pr.1).entries
        · exact ih (invalidate s pr.1) (invalidate_nodup hnd pr.1) x hxs hnx y hy
        · have hx_eq : x = (pr.1, v) := by
            apply dictErase_not_mem hnd hv x hx
            rw [invalidate_eq_of_get hv] at hxs
            exact hxs
          have hv_pr : v = pr.2 := by
            have hpm : dictGet s.entries pr.1 = some pr.2 :=
              dictGet_of_mem_nodup hnd hmem
            rw [hv] at hpm
            exact Option.some.inj hpm
          have hy_s : y ∈ s.entries :=
            invalidate_subset s pr.1 y (ensureAux_subset needed n _ y hy)
          rw [hx_eq, hv_pr]
          exact hmin y hy_s

end ModelCache

namespace ModelCache

theorem put_total (s : CacheState) (k : String) (d : Handle) (sz now : Int) :
    (put s k d sz now).total_size = (ensure_cache_size s sz).total_size + sz := rfl

theorem put_max (s : CacheState) (k : String) (d : Handle) (sz now : Int) :
    (put s k d sz now).max_size_bytes = s.max_size_bytes := by
  show (ensure_cache_size s sz).max_size_bytes = s.max_size_bytes
  exact ensureAux_max sz s.entries.length s

theorem get_state_cases (s : CacheState) (k : String) (now : Int) :
    (get s k now).2 = s ∨ (get s k now).2 = invalidate s k := by
  unfold get
  repeat' split
  all_goals first
    | (left; rfl)
    | (right; rfl)

theorem get_wf {s : CacheState} (hwf : CacheWF s) (k : String) (now : Int) :
    CacheWF (get s k now).2 := by
  rcases get_state_cases s k now with h | h
  · rw [h]; exact hwf
  · rw [h]; exact invalidate_wf hwf k

theorem put_wf_of_fresh {s : CacheState} {k : String} (hwf : CacheWF s)
    (hfresh : dictGet s.entries k = none) (d : Handle) (sz now : Int) :
    CacheWF (put s k d sz now) := by
  have h1 : CacheWF (ensure_cache_size s sz) := ensureAux_wf sz s.entries.length s hwf
  have h2 : dictGet (ensure_cache_size s sz).entries k = none :=
    ensureAux_fresh sz s.entries.length s hfresh
  unfold CacheWF at h1 ⊢
  show (ensure_cache_size s sz).total_size + sz
      = ((dictInsert (ensure_cache_size s sz).entries k
          { timestamp := now, size := sz }).map (fun p => p.2.size)).sum
  rw [dictInsert_of_absent _ h2]
  rw [List.map_append, List.sum_append]
  simp only [List.map_cons, List.map_nil, List.sum_cons, List.sum_nil]
  omega

/-- C3: the bounded-cache put property, in the form the code satisfies.
Hypotheses: the index is well formed (recorded running total equals the
sum of the live entries' recorded sizes — the cache-index bookkeeping
invariant), the entries dict has unique keys (as every Python dict does),
and the incoming size does not exceed the ceiling.  Conclusion: the
post-insertion running total is bounded by the ceiling, the eviction loop
stops exactly when the new entry fits or no entries remain, and every
evicted entry is no younger than every surviving entry (oldest-first
eviction). -/
theorem C3_put_eviction_bound (s : CacheState) (k : String) (d : Handle) (sz now : Int)
    (hwf : CacheWF s) (hnd : (dictKeys s.entries).Nodup) (hsz : sz ≤ s.max_size_bytes) :
    (put s k d sz now).total_size ≤ s.max_size_bytes ∧
    ((ensure_cache_size s sz).total_size + sz ≤ s.max_size_bytes ∨
      (ensure_cache_size s sz).entries = []) ∧
    (∀ x ∈ s.entries, x ∉ (ensure_cache_size s sz).entries →
      ∀ y ∈ (ensure_cache_size s sz).entries, x.2.timestamp ≤ y.2.timestamp) := by
  have hexit := ensureAux_exit sz s.entries.length s (le_refl _)
  have hwf1 : CacheWF (ensure_cache_size s sz) := ensureAux_wf sz s.entries.length s hwf
  refine ⟨?_, hexit, ensureAux_oldest_first sz s.entries.length s hnd⟩
  rw [put_total]
  rcases hexit with h1 | h1
  · exact h1
  · show (ensureAux sz s.entries.length s).total_size + sz ≤ s.max_size_bytes
    unfold CacheWF ensure_cache_size at hwf1
    rw [h1] at hwf1
    simp only [List.map_nil, List.sum_nil] at hwf1
    omega

/-- C3 counterexample to the claim as stated: both inputs below are
reached by genuine put calls starting from a fresh cache with a ceiling
of 100 bytes, and in both the recorded running total strictly exceeds
the ceiling after put returns.  The first inserts a single entry larger
than the ceiling; the second first inflates the recorded total by
re-putting an existing key (put adds the new size without subtracting
the old entry's), after which a put of size 90 ≤ 100 ends with total 120. -/
theorem C3_ceiling_counterexample :
    (put (empty_cache 100 24) "k" 3 101 0).total_size = 101 ∧
    (put (put (put (empty_cache 100 24) "k" 5 30 0) "k" 5 50 1) "j" 7 90 2).total_size
      = 120 := by
  decide

def c3w : CacheState :=
  { entries := [("a", { timestamp := 0, size := 60 }), ("b", { timestamp := 1, size := 50 })]
    total_size := 110
    disk := [("a", some 1), ("b", some 2)]
    max_size_bytes := 100
    ttl := 24 }

/-- Witness for C3_put_eviction_bound at a concrete over-full cache. -/
theorem C3_put_eviction_bound_witness :
    (put c3w "c" 2 30 5).total_size ≤ c3w.max_size_bytes ∧
    ((ensure_cache_size c3w 30).total_size + 30 ≤ c3w.max_size_bytes ∨
      (ensure_cache_size c3w 30).entries = []) ∧
    (∀ x ∈ c3w.entries, x ∉ (ensure_cache_size c3w 30).entries →
      ∀ y ∈ (ensure_cache_size c3w 30).entries, x.2.timestamp ≤ y.2.timestamp) :=
  C3_put_eviction_bound c3w "c" 2 30 5 (by decide) (by decide) (by decide)

end ModelCache

namespace ModelCache

/-- One cache operation issued by a caller (the arguments the source
methods take, with the wall-clock instant made explicit). -/
inductive CacheOp where
  | get (k : String) (now : Int)
  | put (k : String) (data : Handle) (size_bytes : Int) (now : Int)
  | invalidate (k : String)
deriving DecidableEq

def execOp (s : CacheState) : CacheOp → CacheState
  | .get k now => (get s k now).2
  | .put k d sz now => put s k d sz now
  | .invalidate k => invalidate s k

def runOps : CacheState → List CacheOp → CacheState
  | s, [] => s
  | s, op :: rest => runOps (execOp s op) rest

/-- Holds of a put targeting a key absent from the index; vacuous for
the other operations. -/
def opFresh (s : CacheState) : CacheOp → Bool
  | .put k _ _ _ => (dictGet s.entries k).isNone
  | .get _ _ => true
  | .invalidate _ => true

/-- Holds when every put in the sequence targets a key that is absent
from the index at the moment the put runs. -/
def fresh_puts : CacheState → List CacheOp → Bool
  | _, [] => true
  | s, op :: rest => opFresh s op && fresh_puts (execOp s op) rest

theorem runOps_wf : ∀ (ops : List CacheOp) (s : CacheState), CacheWF s →
    fresh_puts s ops = true → CacheWF (runOps s ops) := by
  intro ops
  induction ops with
  | nil => intro s hwf _; exact hwf
  | cons op rest ih =>
    intro s hwf hfresh
    rw [fresh_puts, Bool.and_eq_true] at hfresh
    rw [runOps]
    apply ih _ _ hfresh.2
    have h1 := hfresh.1
    cases op with
    | get k now => exact get_wf hwf k now
    | put k d sz now =>
      simp only [opFresh, Option.isNone_iff_eq_none] at h1
      exact put_wf_of_fresh hwf h1 d sz now
    | invalidate k => exact invalidate_wf hwf k

/-- C4 (amended): starting from a fresh cache index, after any sequence
of get, put and invalidate operations in which every put targets a key
not currently present in the index, the recorded total_size equals the
sum of the sizes of the entries present in the index.  (The unrestricted
claim, including puts that overwrite a live key, is refuted by
C4_total_counterexample.) -/
theorem C4_total_invariant (maxBytes ttl : Int) (ops : List CacheOp)
    (hfresh : fresh_puts (empty_cache maxBytes ttl) ops = true) :
    CacheWF (runOps (empty_cache maxBytes ttl) ops) :=
  runOps_wf ops (empty_cache maxBytes ttl) rfl hfresh

/-- Witness for C4_total_invariant on a concrete operation sequence. -/
theorem C4_total_invariant_witness :
    CacheWF (runOps (empty_cache 1000 24)
      [.put "a" 1 10 0, .put "b" 2 20 1, .invalidate "a", .get "b" 2]) :=
  C4_total_invariant 1000 24
    [.put "a" 1 10 0, .put "b" 2 20 1, .invalidate "a", .get "b" 2] (by decide)

/-- C4 counterexample to the claim as stated: two puts of size 10 under
the same key starting from an empty index leave total_size = 20 while
the single live entry has size 10, so the recorded total differs from
the sum of the live entries' sizes. -/
theorem C4_total_counterexample :
    ¬ CacheWF (runOps (empty_cache 1000 24) [.put "k" 0 10 0, .put "k" 0 10 1]) := by
  decide

/-- C5 (amended): an entry inserted at time T is reported as a miss by
get at any time strictly greater than T plus the TTL, and the lookup
removes it from the index.  (At exactly T plus the TTL the source's
strict comparison keeps the entry alive: see C5_boundary_counterexample.) -/
theorem C5_ttl_expiry (s : CacheState) (k : String) (e : CacheEntryM) (now : Int)
    (hnd : (dictKeys s.entries).Nodup)
    (hget : dictGet s.entries k = some e)
    (hexp : e.timestamp + s.ttl < now) :
    (get s k now).1 = none ∧
    (get s k now).2 = invalidate s k ∧
    dictGet ((get s k now).2).entries k = none := by
  have ht : now - e.timestamp > s.ttl := by omega
  have hstate : get s k now = (none, invalidate s k) := by
    unfold get
    rw [hget]
    show (if now - e.timestamp > s.ttl then ((none : Option Handle), invalidate s k)
          else match dictGet s.disk k with
            | none => (none, invalidate s k)
            | some none => (none, invalidate s k)
            | some (some h) => (some h, s)) = (none, invalidate s k)
    rw [if_pos ht]
  refine ⟨by rw [hstate], by rw [hstate], ?_⟩
  rw [hstate, invalidate_eq_of_get hget]
  exact dictGet_erase_self hnd

def c5state : CacheState :=
  { entries := [("k", { timestamp := 0, size := 5 })]
    total_size := 5
    disk := [("k", some 42)]
    max_size_bytes := 100
    ttl := 10 }

/-- C5 counterexample to the claim as stated: the entry was inserted at
T = 0 under TTL = 10, yet a get at exactly time 10 = T + TTL returns a
hit and leaves the entry in the index, because the source compares the
age with a strict greater-than. -/
theorem C5_boundary_counterexample :
    (get c5state "k" 10).1 = some 42 ∧
    dictGet ((get c5state "k" 10).2).entries "k" = some { timestamp := 0, size := 5 } := by
  decide

/-- Witness for C5_ttl_expiry one tick past the boundary. -/
theorem C5_ttl_expiry_witness :
    (get c5state "k" 11).1 = none ∧
    (get c5state "k" 11).2 = invalidate c5state "k" ∧
    dictGet ((get c5state "k" 11).2).entries "k" = none :=
  C5_ttl_expiry c5state "k" { timestamp := 0, size := 5 } 11
    (by decide) (by decide) (by decide)

end ModelCache

namespace ModelManager

/-- Registry record for one model (the fields of config["models"][name]
that the manager's control flow reads; url, version, size and description
do not influence any modelled branch). -/
structure MInfo where
  sha256 : Option Nat
  required : Bool
deriving DecidableEq

/-- State of a ModelManager instance: the models directory name, the
persisted registry (self.config["models"]), the model files on disk
(name to content), the temporary .tmp download files, and a counter of
network transfers started (requests.get calls that returned a response). -/
structure ManagerState where
  models_dir : String
  models : List (String × MInfo)
  files : List (String × Nat)
  temps : List (String × Nat)
  transfers : Nat
deriving DecidableEq

/-- A Python exception escaping a manager method. -/
inductive PyErr where
  | valueError
  | keyError
  | unboundLocal
deriving DecidableEq

/-- Outcome of the network transfer attempted by download_model:
the initial requests.get itself raises; the stream fails part-way
through writing the temporary file; or the full content arrives. -/
inductive NetBehavior where
  | reqFail
  | streamFail (part : Nat)
  | success (content : Nat)
deriving DecidableEq

/-- Overwrite the sha256 recorded for a model in the registry
(self.config["models"][name]["sha256"] = h followed by save_config). -/
def set_sha (models : List (String × MInfo)) (n : String) (h : Option Nat) :
    List (String × MInfo) :=
  models.map (fun p => if p.1 = n then (p.1, { p.2 with sha256 := h }) else p)

/-- ModelManager.verify_model.  hash abstracts calculate_hash: the
SHA-256 of the file contents.  Returns false when the file is missing;
adopts the computed hash (and persists it) when none is recorded;
otherwise compares.  Raises KeyError only if the file exists but the
name is not in the registry (never reached through the modelled
callers, which all check the registry first). -/
def verify_model (hash : Nat → Nat) (s : ManagerState) (name : String) :
    Except PyErr (Bool × ManagerState) :=
  match dictGet s.files name with
  | none => .ok (false, s)
  | some content =>
    match dictGet s.models name with
    | none => .error .keyError
    | some info =>
      match info.sha256 with
      | none =>
        .ok (true, { s with models := set_sha s.models name (some (hash content)) })
      | some expected => .ok ((hash content == expected), s)

/-- The body of the try block plus the except handler of
ModelManager.download_model (source lines 186-224), given the network's
behavior.  On reqFail the initial requests.get raises before temp_path
is assigned, so the handler's reference to temp_path raises
UnboundLocalError, which propagates to the caller.  On streamFail the
temporary file was created, so the handler unlinks it and returns
False.  On success the temporary file is written, its hash is computed
and recorded into the registry, and the rename makes the content the
final file. -/
def download_phase (hash : Nat → Nat) (s : ManagerState) (name : String)
    (net : NetBehavior) : Except PyErr (Bool × ManagerState) :=
  match net with
  | .reqFail => .error .unboundLocal
  | .streamFail part =>
    .ok (false,
      { s with
        transfers := s.transfers + 1
        temps := dictErase (dictInsert s.temps name part) name })
  | .success content =>
    let s1 := { s with
      transfers := s.transfers + 1
      temps := dictInsert s.temps name content }
    let s2 := { s1 with models := set_sha s1.models name (some (hash content)) }
    let s3 := { s2 with
      files := dictInsert s2.files name content
      temps := dictErase s2.temps name }
    .ok (true, s3)

/-- ModelManager.download_model: ValueError for unregistered names;
when not forced and the file exists, an early verify that returns
success immediately on a valid file; otherwise the download phase. -/
def download_model (hash : Nat → Nat) (s : ManagerState) (name : String)
    (force : Bool) (net : NetBehavior) : Except PyErr (Bool × ManagerState) :=
  match dictGet s.models name with
  | none => .error .valueError
  | some _ =>
    if force = false ∧ (dictGet s.files name).isSome then
      match verify_model hash s name with
      | .ok (true, s1) => .ok (true, s1)
      | .ok (false, s1) => download_phase hash s1 name net
      | .error e => .error e
    else download_phase hash s name net

/-- The loop body of ModelManager.ensure_models over a snapshot of the
registry items.  success mirrors the Python accumulator: the statement
success = success and self.download_model(name) short-circuits, so the
download is only invoked while success is still True.  The third
result component logs the names for which download_model was invoked. -/
def ensureGo (hash : Nat → Nat) (net : String → NetBehavior) :
    List (String × MInfo) → ManagerState → Bool → List String →
    Except PyErr (Bool × ManagerState × List String)
  | [], s, success, log => .ok (success, s, log)
  | (n, info) :: rest, s, success, log =>
    if info.required then
      match verify_model hash s n with
      | .error e => .error e
      | .ok (true, s1) => ensureGo hash net rest s1 success log
      | .ok (false, s1) =>
        if success then
          match download_model hash s1 n false (net n) with
          | .error e => .error e
          | .ok (d, s2) => ensureGo hash net rest s2 (success && d) (log ++ [n])
        else ensureGo hash net rest s1 false log
    else ensureGo hash net rest s success log

/-- ModelManager.ensure_models. -/
def ensure_models (hash : Nat → Nat) (net : String → NetBehavior) (s : ManagerState) :
    Except PyErr (Bool × ManagerState × List String) :=
  ensureGo hash net s.models s true []

/-- ModelManager.get_model_path: ValueError for unregistered names;
otherwise verify, download when invalid (discarding the boolean result),
and return models_dir/name.  An exception escaping download_model
propagates. -/
def get_model_path (hash : Nat → Nat) (s : ManagerState) (name : String)
    (net : NetBehavior) : Except PyErr (String × ManagerState) :=
  match dictGet s.models name with
  | none => .error .valueError
  | some _ =>
    match verify_model hash s name with
    | .error e => .error e
    | .ok (true, s1) => .ok (s.models_dir ++ "/" ++ name, s1)
    | .ok (false, s1) =>
      match download_model hash s1 name false net with
      | .error e => .error e
      | .ok (_, s2) => .ok (s.models_dir ++ "/" ++ name, s2)

end ModelManager

instance exceptDecEq {ε α : Type} [DecidableEq ε] [DecidableEq α] :
    DecidableEq (Except ε α)
  | .error e1, .error e2 =>
    if h : e1 = e2 then .isTrue (by rw [h])
    else .isFalse (fun hc => h (Except.error.inj hc))
  | .error _, .ok _ => .isFalse (fun hc => Except.noConfusion hc)
  | .ok _, .error _ => .isFalse (fun hc => Except.noConfusion hc)
  | .ok a1, .ok a2 =>
    if h : a1 = a2 then .isTrue (by rw [h])
    else .isFalse (fun hc => h (Except.ok.inj hc))

theorem dictGet_insert_self {α : Type} (l : List (String × α)) (k : String) (v : α) :
    dictGet (dictInsert l k v) k = some v := by
  induction l with
  | nil => simp [dictInsert, dictGet]
  | cons p rest ih =>
    by_cases hk : p.1 = k
    · rw [dictInsert, if_pos hk]
      simp [dictGet]
    · rw [dictInsert, if_neg hk, dictGet, if_neg hk]
      exact ih

namespace ModelManager

theorem dictGet_set_sha {n : String} {info : MInfo} :
    ∀ {models : List (String × MInfo)}, dictGet models n = some info →
      ∀ (h : Option Nat),
        dictGet (set_sha models n h) n = some { info with sha256 := h } := by
  intro models
  induction models with
  | nil => intro hm _; simp [dictGet] at hm
  | cons p rest ih =>
    intro hm h
    by_cases hk : p.1 = n
    · rw [dictGet, if_pos hk] at hm
      have hpi : p.2 = info := Option.some.inj hm
      simp [set_sha, dictGet, hk, hpi]
    · rw [dictGet, if_neg hk] at hm
      have := ih hm h
      simp only [set_sha, List.map_cons] at *
      rw [if_neg hk, dictGet, if_neg hk]
      exact this

theorem verify_false_state {hash : Nat → Nat} {s : ManagerState} {n : String}
    {s1 : ManagerState} (h : verify_model hash s n = .ok (false, s1)) : s1 = s := by
  cases hf : dictGet s.files n with
  | none =>
    simp only [verify_model, hf, Except.ok.injEq, Prod.mk.injEq, true_and] at h
    exact h.symm
  | some c =>
    cases hm : dictGet s.models n with
    | none =>
      simp only [verify_model, hf, hm] at h
      exact Except.noConfusion h
    | some info =>
      cases hsha : info.sha256 with
      | none =>
        simp only [verify_model, hf, hm, hsha, Except.ok.injEq, Prod.mk.injEq] at h
        exact Bool.noConfusion h.1
      | some e =>
        simp only [verify_model, hf, hm, hsha, Except.ok.injEq, Prod.mk.injEq] at h
        exact h.2.symm

theorem verify_true_facts {hash : Nat → Nat} {s : ManagerState} {n : String}
    {s1 : ManagerState} (h : verify_model hash s n = .ok (true, s1)) :
    ∃ c info1, dictGet s.files n = some c ∧ s1.files = s.files ∧
      dictGet s1.models n = some info1 ∧ info1.sha256 = some (hash c) := by
  cases hf : dictGet s.files n with
  | none =>
    simp only [verify_model, hf, Except.ok.injEq, Prod.mk.injEq] at h
    exact Bool.noConfusion h.1
  | some c =>
    cases hm : dictGet s.models n with
    | none =>
      simp only [verify_model, hf, hm] at h
      exact Except.noConfusion h
    | some info =>
      cases hsha : info.sha256 with
      | none =>
        simp only [verify_model, hf, hm, hsha, Except.ok.injEq, Prod.mk.injEq,
          true_and] at h
        refine ⟨c, { info with sha256 := some (hash c) }, rfl, ?_, ?_, rfl⟩
        · rw [← h]
        · rw [← h]
          exact dictGet_set_sha hm (some (hash c))
      | some e =>
        simp only [verify_model, hf, hm, hsha, Except.ok.injEq, Prod.mk.injEq] at h
        have he : hash c = e := eq_of_beq h.1
        refine ⟨c, info, rfl, ?_, ?_, ?_⟩
        · rw [← h.2]
        · rw [← h.2]; exact hm
        · rw [hsha, ← he]

/-- C6: the three-way case analysis of ModelManager.verify_model: a
missing file yields false with no state change; an existing file with no
recorded hash is trusted, the computed hash is adopted into the registry
(trust-on-first-use) and true is returned; an existing file with a
recorded hash yields true exactly when the freshly computed hash equals
the recorded one, with no state change. -/
theorem C6_verify_model_cases (hash : Nat → Nat) (s : ManagerState) (name : String) :
    (dictGet s.files name = none → verify_model hash s name = .ok (false, s)) ∧
    (∀ content info, dictGet s.files name = some content →
      dictGet s.models name = some info → info.sha256 = none →
      verify_model hash s name
        = .ok (true, { s with models := set_sha s.models name (some (hash content)) }) ∧
      dictGet (set_sha s.models name (some (hash content))) name
        = some { info with sha256 := some (hash content) }) ∧
    (∀ content info expected, dictGet s.files name = some content →
      dictGet s.models name = some info → info.sha256 = some expected →
      verify_model hash s name = .ok ((hash content == expected), s)) := by
  refine ⟨?_, ?_, ?_⟩
  · intro hf
    simp only [verify_model, hf]
  · intro c info hf hm hsha
    constructor
    · simp only [verify_model, hf, hm, hsha]
    · exact dictGet_set_sha hm (some (hash c))
  · intro c info e hf hm hsha
    simp only [verify_model, hf, hm, hsha]

def mgr_missing : ManagerState :=
  { models_dir := "backend/models"
    models := [("m", { sha256 := some 5, required := true })]
    files := []
    temps := []
    transfers := 0 }

def mgr_adopt : ManagerState :=
  { models_dir := "backend/models"
    models := [("m", { sha256 := none, required := true })]
    files := [("m", 7)]
    temps := []
    transfers := 0 }

def mgr_cmp : ManagerState :=
  { models_dir := "backend/models"
    models := [("m", { sha256 := some 7, required := true })]
    files := [("m", 7)]
    temps := []
    transfers := 0 }

/-- Witness for C6_verify_model_cases: one concrete state per case. -/
theorem C6_verify_model_cases_witness :
    verify_model (fun c => c) mgr_missing "m" = .ok (false, mgr_missing) ∧
    (verify_model (fun c => c) mgr_adopt "m"
        = .ok (true, { mgr_adopt with models := set_sha mgr_adopt.models "m" (some 7) }) ∧
      dictGet (set_sha mgr_adopt.models "m" (some 7)) "m"
        = some { sha256 := some 7, required := true }) ∧
    verify_model (fun c => c) mgr_cmp "m" = .ok ((7 == 7), mgr_cmp) :=
  ⟨(C6_verify_model_cases (fun c => c) mgr_missing "m").1 (by decide),
   (C6_verify_model_cases (fun c => c) mgr_adopt "m").2.1 7
      { sha256 := none, required := true } (by decide) (by decide) (by decide),
   (C6_verify_model_cases (fun c => c) mgr_cmp "m").2.2 7
      { sha256 := some 7, required := true } 7 (by decide) (by decide) (by decide)⟩

end ModelManager

namespace ModelManager

theorem phase_success_facts {hash : Nat → Nat} {s : ManagerState} {n : String}
    {net : NetBehavior} {info : MInfo} (hm : dictGet s.models n = some info)
    {s' : ManagerState} (h : download_phase hash s n net = .ok (true, s')) :
    ∃ c info1, dictGet s'.files n = some c ∧
      dictGet s'.models n = some info1 ∧ info1.sha256 = some (hash c) := by
  cases net with
  | reqFail =>
    simp only [download_phase] at h
    exact Except.noConfusion h
  | streamFail part =>
    simp only [download_phase, Except.ok.injEq, Prod.mk.injEq] at h
    exact Bool.noConfusion h.1
  | success content =>
    simp only [download_phase, Except.ok.injEq, Prod.mk.injEq, true_and] at h
    refine ⟨content, { info with sha256 := some (hash content) }, ?_, ?_, rfl⟩
    · rw [← h]
      exact dictGet_insert_self s.files n content
    · rw [← h]
      exact dictGet_set_sha hm (some (hash content))

theorem download_success_facts {hash : Nat → Nat} {s : ManagerState} {n : String}
    {force : Bool} {net : NetBehavior} {s' : ManagerState}
    (h : download_model hash s n force net = .ok (true, s')) :
    ∃ c info1, dictGet s'.files n = some c ∧
      dictGet s'.models n = some info1 ∧ info1.sha256 = some (hash c) := by
  cases hm : dictGet s.models n with
  | none =>
    simp only [download_model, hm] at h
    exact Except.noConfusion h
  | some info =>
    simp only [download_model, hm] at h
    by_cases hc : force = false ∧ (dictGet s.files n).isSome
    · rw [if_pos hc] at h
      cases hv : verify_model hash s n with
      | error e =>
        simp only [hv] at h
        exact Except.noConfusion h
      | ok pr =>
        obtain ⟨b, s1⟩ := pr
        cases b with
        | true =>
          simp only [hv, Except.ok.injEq, Prod.mk.injEq, true_and] at h
          subst h
          obtain ⟨c, i1, hf, hfiles, hmodels, hsha⟩ := verify_true_facts hv
          refine ⟨c, i1, ?_, hmodels, hsha⟩
          rw [hfiles]
          exact hf
        | false =>
          simp only [hv] at h
          have hs1 : s1 = s := verify_false_state hv
          subst hs1
          exact phase_success_facts hm h
    · rw [if_neg hc] at h
      exact phase_success_facts hm h

theorem download_valid_noop (hash : Nat → Nat) (s : ManagerState) (n : String)
    (net : NetBehavior) {c : Nat} {info : MInfo}
    (hf : dictGet s.files n = some c)
    (hm : dictGet s.models n = some info)
    (hsha : info.sha256 = some (hash c)) :
    download_model hash s n false net = .ok (true, s) := by
  have hv : verify_model hash s n = .ok (true, s) := by
    simp only [verify_model, hf, hm, hsha, beq_self_eq_true]
  simp [download_model, hm, hf, hv]

/-- C7: once a download_model call for a name has returned success, an
immediately following download_model for the same name without force
returns success with the state unchanged — in particular the transfer
counter is unchanged, so no network transfer is performed — whatever
the network would have done. -/
theorem C7_download_idempotent (hash : Nat → Nat) (s s' : ManagerState) (n : String)
    (force1 : Bool) (net1 net2 : NetBehavior)
    (h1 : download_model hash s n force1 net1 = .ok (true, s')) :
    download_model hash s' n false net2 = .ok (true, s') ∧
    ∀ b t, download_model hash s' n false net2 = .ok (b, t) →
      t.transfers = s'.transfers := by
  obtain ⟨c, i1, hf, hm, hsha⟩ := download_success_facts h1
  have h2 := download_valid_noop hash s' n net2 hf hm hsha
  refine ⟨h2, ?_⟩
  intro b t ht
  rw [h2] at ht
  injection ht with ht'
  injection ht' with _ ht2
  rw [← ht2]

def mgr_c7after : ManagerState :=
  { models_dir := "backend/models"
    models := [("m", { sha256 := some 7, required := true })]
    files := [("m", 7)]
    temps := []
    transfers := 0 }

/-- Witness for C7_download_idempotent: the first call succeeded via the
early verify (adopting the hash), and the second call succeeds without
touching the network, even though the network would fail. -/
theorem C7_download_idempotent_witness :
    download_model (fun c => c) mgr_c7after "m" false .reqFail = .ok (true, mgr_c7after) ∧
    ∀ b t, download_model (fun c => c) mgr_c7after "m" false .reqFail = .ok (b, t) →
      t.transfers = mgr_c7after.transfers :=
  C7_download_idempotent (fun c => c) mgr_adopt mgr_c7after "m" false
    (.success 7) .reqFail (by decide)

def mgr_no_file : ManagerState :=
  { models_dir := "backend/models"
    models := [("tinyllama", { sha256 := none, required := true })]
    files := []
    temps := []
    transfers := 0 }

/-- C1: evidence for the code_bug.  When the model is absent and the
initial requests.get raises, the except handler of download_model
references temp_path, a local that is only assigned after the request
succeeds, so an UnboundLocalError escapes instead of the documented
cleanup-and-return-false.  A failure later in the stream, after the
temporary file exists, does behave as specified: the temporary file is
removed, no file appears at the final path, and false is returned. -/
theorem C1_download_initial_failure_raises :
    download_model (fun c => c) mgr_no_file "tinyllama" false .reqFail
      = .error .unboundLocal ∧
    download_model (fun c => c) mgr_no_file "tinyllama" false (.streamFail 5)
      = .ok (false, { mgr_no_file with transfers := 1 }) := by
  decide

def mgr_two : ManagerState :=
  { models_dir := "backend/models"
    models := [("m1", { sha256 := none, required := true }),
               ("m2", { sha256 := none, required := true })]
    files := []
    temps := []
    transfers := 0 }

def netC2 : String → NetBehavior :=
  fun n => if n = "m1" then .streamFail 3 else .success 9

/-- C2: evidence for the code_bug.  Both m1 and m2 are required and fail
verification, yet after m1's download fails the short-circuiting
accumulator (success = success and download(...)) skips the download of
m2 entirely: the invocation log contains only m1, and ensure_models
returns false without ever attempting m2 even though its download would
have succeeded. -/
theorem C2_ensure_models_short_circuit :
    (ensure_models (fun c => c) netC2 mgr_two).map (fun r => (r.1, r.2.2))
      = .ok (false, ["m1"]) ∧
    (dictGet mgr_two.models "m2").map (fun i => i.required) = some true ∧
    verify_model (fun c => c) mgr_two "m2" = .ok (false, mgr_two) := by
  decide

/-- C10 counterexample to the claim as stated: tinyllama is present in
the registry, yet get_model_path does not return the path — the
UnboundLocalError escaping download_model (the temp_path slip hit when
the initial request fails) propagates through get_model_path. -/
theorem C10_path_counterexample :
    get_model_path (fun c => c) mgr_no_file "tinyllama" .reqFail
      = .error .unboundLocal := by
  decide

/-- C10 (amended): get_model_path raises ValueError for names absent
from the registry; for a registered name it returns models_dir/name
whenever the verify-or-download pipeline terminates normally — in
particular even when the attempted download returns false, the result
being discarded — and the only other outcome is an exception escaping
download_model, which propagates. -/
theorem C10_get_model_path (hash : Nat → Nat) (s : ManagerState) (n : String)
    (net : NetBehavior) :
    (dictGet s.models n = none → get_model_path hash s n net = .error .valueError) ∧
    (∀ info, dictGet s.models n = some info →
      (∀ s1, verify_model hash s n = .ok (true, s1) →
        get_model_path hash s n net = .ok (s.models_dir ++ "/" ++ n, s1)) ∧
      (∀ s1 b s2, verify_model hash s n = .ok (false, s1) →
        download_model hash s1 n false net = .ok (b, s2) →
        get_model_path hash s n net = .ok (s.models_dir ++ "/" ++ n, s2)) ∧
      (∀ s1 e, verify_model hash s n = .ok (false, s1) →
        download_model hash s1 n false net = .error e →
        get_model_path hash s n net = .error e)) := by
  refine ⟨?_, ?_⟩
  · intro hm
    simp only [get_model_path, hm]
  · intro info hm
    refine ⟨?_, ?_, ?_⟩
    · intro s1 hv
      simp only [get_model_path, hm, hv]
    · intro s1 b s2 hv hd
      simp only [get_model_path, hm, hv, hd]
    · intro s1 e hv hd
      simp only [get_model_path, hm, hv, hd]

/-- Witness for C10_get_model_path: the registered model is invalid,
the download fails cleanly (stream failure), and the path is still
returned. -/
theorem C10_get_model_path_witness :
    get_model_path (fun c => c) mgr_no_file "tinyllama" (.streamFail 5)
      = .ok (mgr_no_file.models_dir ++ "/" ++ "tinyllama",
             { mgr_no_file with transfers := 1 }) :=
  ((C10_get_model_path (fun c => c) mgr_no_file "tinyllama" (.streamFail 5)).2
      { sha256 := none, required := true } (by decide)).2.1 mgr_no_file false
      { mgr_no_file with transfers := 1 } (by decide) (by decide)

end ModelManager

namespace InferenceHandler

/-- State of an InferenceHandler: the currently held model handle
(self.model, None when nothing is loaded). -/
structure LoaderState where
  model : Option Handle
deriving DecidableEq

/-- An observable step of load_model: an instantiation attempt with a
given gpu_layers budget, or the release performed by _cleanup. -/
inductive LoadEvent where
  | attempt (gpu_layers : Nat)
  | release
deriving DecidableEq

/-- InferenceHandler._cleanup: drop the held handle (del self.model;
self.model = None; gc.collect()). -/
def cleanup (_ : LoaderState) : LoaderState :=
  { model := none }

/-- InferenceHandler._load_model_on_cpu: one instantiation attempt with
gpu_layers forced to 0.  inst maps a gpu_layers budget to the handle the
underlying from_pretrained call produces, none when it raises; on
failure self.model is left unchanged (the assignment never ran) and
False is returned. -/
def load_model_on_cpu (inst : Nat → Option Handle) (s : LoaderState) :
    Bool × LoaderState × List LoadEvent :=
  match inst 0 with
  | some h => (true, { model := some h }, [.attempt 0])
  | none => (false, s, [.attempt 0])

/-- InferenceHandler.load_model: attempt the configured tier; on failure
release any partially allocated resources (_cleanup) and fall back to
the CPU-only tier. -/
def load_model (inst : Nat → Option Handle) (gpu_layers : Nat) (s : LoaderState) :
    Bool × LoaderState × List LoadEvent :=
  match inst gpu_layers with
  | some h => (true, { model := some h }, [.attempt gpu_layers])
  | none =>
    let s1 := cleanup s
    let r := load_model_on_cpu inst s1
    (r.1, r.2.1, [.attempt gpu_layers, .release] ++ r.2.2)

/-- C8: load_model succeeds exactly when some tier's instantiation
succeeds; on success the handler ends holding a usable handle; on
failure of all tiers nothing remains allocated (the handle is none);
and when the preferred tier fails, the release runs between the two
attempts, before the CPU-only tier is tried. -/
theorem C8_load_fallback (inst : Nat → Option Handle) (gpu_layers : Nat)
    (s : LoaderState) :
    ((load_model inst gpu_layers s).1 = true ↔
      (inst gpu_layers).isSome ∨ (inst 0).isSome) ∧
    ((load_model inst gpu_layers s).1 = true →
      ((load_model inst gpu_layers s).2.1).model.isSome) ∧
    ((load_model inst gpu_layers s).1 = false →
      ((load_model inst gpu_layers s).2.1).model = none) ∧
    (inst gpu_layers = none →
      (load_model inst gpu_layers s).2.2
        = [.attempt gpu_layers, .release, .attempt 0]) := by
  cases hg : inst gpu_layers with
  | some h => simp [load_model, hg]
  | none =>
    cases h0 : inst 0 with
    | some h => simp [load_model, load_model_on_cpu, cleanup, hg, h0]
    | none => simp [load_model, load_model_on_cpu, cleanup, hg, h0]

/-- Concrete instantiation oracle for the witness: the preferred tier
(32 offloaded layers) fails, the CPU-only tier succeeds. -/
def instC8 : Nat → Option Handle :=
  fun g => if g = 0 then some 11 else none

/-- Witness for C8_load_fallback with a failing preferred tier. -/
theorem C8_load_fallback_witness :
    ((load_model instC8 32 { model := none }).1 = true ↔
      (instC8 32).isSome ∨ (instC8 0).isSome) ∧
    ((load_model instC8 32 { model := none }).1 = true →
      ((load_model instC8 32 { model := none }).2.1).model.isSome) ∧
    ((load_model instC8 32 { model := none }).1 = false →
      ((load_model instC8 32 { model := none }).2.1).model = none) ∧
    (instC8 32 = none →
      (load_model instC8 32 { model := none }).2.2
        = [.attempt 32, .release, .attempt 0]) :=
  C8_load_fallback instC8 32 { model := none }

end InferenceHandler

namespace ModelCache

/-- A flat JSON value as found in the load configurations passed to
get_cache_key. -/
inductive JVal where
  | jstr (v : String)
  | jnum (n : Int)
  | jbool (b : Bool)
  | jnull
deriving DecidableEq

/-- json.dumps of a scalar value. -/
def dumpVal : JVal → String
  | .jstr v => "\"" ++ v ++ "\""
  | .jnum n => toString n
  | .jbool true => "true"
  | .jbool false => "false"
  | .jnull => "null"

/-- The key order used by json.dumps(config, sort_keys=True). -/
def keyLe (p q : String × JVal) : Prop := p.1 ≤ q.1

/-- Strict key order, used to show sorted outputs with distinct keys
are unique. -/
def keyLt (p q : String × JVal) : Prop := p.1 < q.1

instance : DecidableRel keyLe := fun p q => inferInstanceAs (Decidable (p.1 ≤ q.1))

instance : IsTotal (String × JVal) keyLe := ⟨fun a b => le_total a.1 b.1⟩

instance : IsTrans (String × JVal) keyLe := ⟨fun _ _ _ h1 h2 => le_trans h1 h2⟩

instance : IsAntisymm (String × JVal) keyLt := ⟨fun _ _ h1 h2 => absurd h2 (lt_asymm h1)⟩

/-- json.dumps(config, sort_keys=True): serialize the items with the
keys in sorted order (Python's sort is modelled by insertion sort on
the key order; for the distinct keys of a dict the sorted list is
unique, so the choice of algorithm is immaterial). -/
def dumps_sorted (config : List (String × JVal)) : String :=
  "\x7b" ++ String.intercalate ", "
    ((List.insertionSort keyLe config).map
      (fun p => "\"" ++ p.1 ++ "\": " ++ dumpVal p.2)) ++ "\x7d"

/-- ModelCache.get_cache_key: a hash of "name:config_str" where
config_str is the canonical sorted serialization of the configuration;
sha256hex abstracts hashlib.sha256(...).hexdigest(). -/
def get_cache_key (sha256hex : String → String) (model_name : String)
    (config : List (String × JVal)) : String :=
  sha256hex (model_name ++ ":" ++ dumps_sorted config)

theorem sorted_keyLt_of_sorted_keyLe {l : List (String × JVal)}
    (hs : l.Sorted keyLe) (hnd : (l.map Prod.fst).Nodup) : l.Sorted keyLt := by
  have hne : l.Pairwise (fun a b : String × JVal => a.1 ≠ b.1) :=
    (List.pairwise_map).mp hnd
  exact (hs.and hne).imp (fun h => lt_of_le_of_ne h.1 h.2)

/-- C9: get_cache_key is insensitive to the enumeration order of the
configuration: two configurations that are permutations of each other
with the (necessarily distinct) dict keys produce the same cache key,
for every hash function; and the key for a fixed name and configuration
is always the same (the embedding is a pure function of its inputs). -/
theorem C9_cache_key_canonical (sha256hex : String → String) (model_name : String)
    (c1 c2 : List (String × JVal)) (hperm : c1.Perm c2)
    (hnd : (c1.map Prod.fst).Nodup) :
    get_cache_key sha256hex model_name c1 = get_cache_key sha256hex model_name c2 ∧
    get_cache_key sha256hex model_name c1 = get_cache_key sha256hex model_name c1 := by
  refine ⟨?_, rfl⟩
  have hnd2 : (c2.map Prod.fst).Nodup := ((hperm.map Prod.fst).nodup_iff).mp hnd
  have hsorteq : List.insertionSort keyLe c1 = List.insertionSort keyLe c2 := by
    have hp : (List.insertionSort keyLe c1).Perm (List.insertionSort keyLe c2) :=
      ((List.perm_insertionSort keyLe c1).trans hperm).trans
        (List.perm_insertionSort keyLe c2).symm
    have hs1 : (List.insertionSort keyLe c1).Sorted keyLe :=
      List.sorted_insertionSort keyLe c1
    have hs2 : (List.insertionSort keyLe c2).Sorted keyLe :=
      List.sorted_insertionSort keyLe c2
    have hnd1s : ((List.insertionSort keyLe c1).map Prod.fst).Nodup :=
      (((List.perm_insertionSort keyLe c1).map Prod.fst).nodup_iff).mpr hnd
    have hnd2s : ((List.insertionSort keyLe c2).map Prod.fst).Nodup :=
      (((List.perm_insertionSort keyLe c2).map Prod.fst).nodup_iff).mpr hnd2
    exact List.eq_of_perm_of_sorted hp
      (sorted_keyLt_of_sorted_keyLe hs1 hnd1s)
      (sorted_keyLt_of_sorted_keyLe hs2 hnd2s)
  unfold get_cache_key dumps_sorted
  rw [hsorteq]

/-- Witness for C9_cache_key_canonical: the same two-field configuration
enumerated in both orders. -/
theorem C9_cache_key_canonical_witness :
    get_cache_key (fun s => s) "tinyllama"
        [("context_length", .jnum 2048), ("gpu_layers", .jnum 0)]
      = get_cache_key (fun s => s) "tinyllama"
        [("gpu_layers", .jnum 0), ("context_length", .jnum 2048)] ∧
    get_cache_key (fun s => s) "tinyllama"
        [("context_length", .jnum 2048), ("gpu_layers", .jnum 0)]
      = get_cache_key (fun s => s) "tinyllama"
        [("context_length", .jnum 2048), ("gpu_layers", .jnum 0)] :=
  C9_cache_key_canonical (fun s => s) "tinyllama"
    [("context_length", .jnum 2048), ("gpu_layers", .jnum 0)]
    [("gpu_layers", .jnum 0), ("context_length", .jnum 2048)]
    (by decide) (by decide)

end ModelCache
